import Mathlib

/-!
Shallow embedding of `src/lib.rs` of the dif-rust image-hashing module.

The image decoding / grayscale conversion / resizing steps are external
collaborators; every hashing function below therefore takes the already
decoded and resized luminance grid as a function `Grid` (the spec's
`LuminanceGrid`, `sample(x, y)`), exactly as the Rust code consumes it
through `resized.get_pixel(x, y).to_luma()`.

Rust `u32` arithmetic is modelled as `Nat` arithmetic reduced `% 2^32`
(release-profile wrapping semantics).  Rust panics (index out of bounds,
`unwrap` on `None`, integer division by zero) are modelled as the error
value `HashErr.runtimePanic` of an `Except` result.  `f64` values are
idealised as real numbers.
-/

/-- Modulus of Rust `u32` arithmetic. -/
def U32 : Nat := 2 ^ 32

/-- A decoded, resized luminance grid: `g x y` is the 8-bit luminance sample
at column `x`, row `y` (the Rust `resized.get_pixel(x, y).to_luma().0[0]`). -/
def Grid : Type := Nat → Nat → Nat

/-- Failure modes of the embedded code: decode failure (`PyValueError`
"Cannot open image."), the size-mismatch error of `distance`
(`PyValueError` "Unmatch size"), and a Rust panic (slice index out of
bounds, `Option::unwrap` on `None`, or integer division by zero). -/
inductive HashErr where
  | decodeError
  | sizeMismatch
  | runtimePanic
deriving DecidableEq

/-- The `ImageHash` pyclass: `bool_values` (the bit sequence), `values`
(the packed bytes, each `< 256`), and `hash_size`. -/
structure ImageHash where
  bool_values : List Bool
  values : List Nat
  hash_size : Nat
deriving DecidableEq

/-- Rust `v[i] = a` on a `Vec`: writes in place, panics when `i` is out of
bounds. -/
def listSet {α : Type} (l : List α) (i : Nat) (a : α) : Except HashErr (List α) :=
  if i < l.length then .ok (l.set i a) else .error .runtimePanic

/-- Rust `v[i] = f(v[i])` (the `|=` compound assignment on a `Vec<u8>`
element): panics when `i` is out of bounds. -/
def listModify (l : List Nat) (i : Nat) (f : Nat → Nat) : Except HashErr (List Nat) :=
  if i < l.length then .ok (l.set i (f (l.getD i 0))) else .error .runtimePanic

/-- Rust `v.get(i).unwrap()`: panics when `i` is out of bounds. -/
def getPanic (l : List Bool) (i : Nat) : Except HashErr Bool :=
  match l.get? i with
  | some v => .ok v
  | none => .error .runtimePanic

/-- One iteration of the shared bit-packing loop body of `ahash`, `phash`
and `dhash` (lines 76-84, 138-146 and 181-186 of the source): given the
state `(bool_result, result)` and the pair `(c, cmp)`, performs
`bool_result[c] = cmp` and `result[c / 8] |= (cmp as u8) << (c % 8)`
(the `else` branch `result[c / 8] |= 0` also bounds-checks the index,
which is why the byte write happens on both branches). -/
def packStep (st : List Bool × List Nat) (cv : Nat × Bool) :
    Except HashErr (List Bool × List Nat) :=
  match listSet st.1 cv.1 cv.2 with
  | .error e => .error e
  | .ok bools =>
    match listModify st.2 (cv.1 / 8) (fun b => b ||| (if cv.2 then 1 <<< (cv.1 % 8) else 0)) with
    | .error e => .error e
    | .ok bytes => .ok (bools, bytes)

/-- The whole packing loop, folded over the list of `(index, bit)` pairs in
the order the source visits them. -/
def packAll (cs : List (Nat × Bool)) (st : List Bool × List Nat) :
    Except HashErr (List Bool × List Nat) :=
  cs.foldlM packStep st

/-- The luminance sum of `ahash` (lines 60-66): all samples added into a
wrapping `u32`, iterating the resized pixels row by row. -/
def sumLum (g : Grid) (hash_size : Nat) : Nat :=
  (List.range hash_size).foldl
    (fun s y => (List.range hash_size).foldl (fun t x => (t + g x y) % U32) s) 0

/-- The `(index, bit)` pairs of the `ahash` packing loop, in visit order:
the counter `c` equals `y * hash_size + x` over the row-major traversal of
the `pixels` matrix, and the bit is `luminance > mean`. -/
def ahashCs (g : Grid) (hash_size avg : Nat) : List (Nat × Bool) :=
  (List.range hash_size).bind (fun y =>
    (List.range hash_size).map (fun x => (y * hash_size + x, decide (g x y > avg))))

/-- Average hash (`ahash`, lines 49-92) on the decoded grid already resized
to `hash_size × hash_size`: sums all luminances into a wrapping `u32`,
takes the integer mean (a `u32` division, which panics when
`hash_size.pow(2)` is zero — in particular for `hash_size = 0`), then emits
bit `c = y*hash_size + x` as `luminance > mean` in row-major order. -/
def ahash (g : Grid) (hash_size : Nat) : Except HashErr ImageHash :=
  let hashpow := hash_size ^ 2 % U32
  if hashpow = 0 then .error .runtimePanic
  else
    Except.map (fun (st : List Bool × List Nat) => ⟨st.1, st.2, hash_size⟩)
      (packAll (ahashCs g hash_size (sumLum g hash_size / hashpow))
        (List.replicate hashpow false, List.replicate (hashpow / 8) 0))

/-- The `(index, bit)` pairs of the `dhash` packing loop, in visit order:
the index is the source's `(y * 8 + x) as usize` (wrapping `u32`
arithmetic), the bit is `left_pixel > right_pixel`. -/
def dhashCs (g : Grid) (hash_size : Nat) : List (Nat × Bool) :=
  (List.range hash_size).bind (fun y =>
    (List.range hash_size).map (fun x =>
      ((y * 8 + x) % U32, decide (g x y > g (x + 1) y))))

/-- Difference hash (`dhash`, lines 158-198) on the decoded grid already
resized to `(hash_size+1) × (hash_size+1)`: compares each pixel with its
right neighbour, and places the bit at `c = (y * 8 + x) as usize` — the
fixed row stride of 8 used by the source, independent of `hash_size`. -/
def dhash (g : Grid) (hash_size : Nat) : Except HashErr ImageHash :=
  let hashpow := hash_size ^ 2 % U32
  Except.map (fun (st : List Bool × List Nat) => ⟨st.1, st.2, hash_size⟩)
    (packAll (dhashCs g hash_size)
      (List.replicate hashpow false, List.replicate (hashpow / 8) 0))

/-- Boolean `x > y` on real numbers (the `f64` comparison
`dct_arr[i][j] > avg` of the source, idealised over `ℝ`). -/
noncomputable def rgt (x y : ℝ) : Bool :=
  @decide (y < x) (Classical.propDecidable (y < x))

/-- The inner double loop of `phash` (lines 117-123): for a fixed `k`,
`Σ_{y<M} Σ_{x<M} luminance(x,y) * cos(π / (M² as u32) * (n + 0.5) * k)`
with `n = (y*M + x) as u32`, where `M` is the resized image side
(`img_size`) and both `M²` and `n` are wrapping `u32` products. -/
noncomputable def dctCoeff (img_size : Nat) (g : Grid) (k : Nat) : ℝ :=
  ∑ y in Finset.range img_size, ∑ x in Finset.range img_size,
    (g x y : ℝ) *
      Real.cos (Real.pi / ((img_size ^ 2 % U32 : Nat) : ℝ) *
        ((((y * img_size + x) % U32 : Nat) : ℝ) + 0.5) * (k : ℝ))

/-- The coefficient matrix entry `dct_arr[i][j]` computed by `phash`
(lines 111-128): `k = (i * img_size + j) as u32` with `i, j` both running
over `0..hash_size`. -/
noncomputable def phashDct (img_size : Nat) (g : Grid) (i j : Nat) : ℝ :=
  dctCoeff img_size g ((i * img_size + j) % U32)

/-- The coefficient formula as section 4.4 of the spec words it: the output
column index `j` of row `i` ranges over `[1, N]`, is stored at matrix index
`j - 1`, and uses `k = i*M + j`; so matrix entry `(i, j)` uses
`k = i*M + (j+1)`, over the flattened pixel sequence
`pixel[n] = luminance(n mod M, n div M)`. -/
noncomputable def dctCoeffSpec (img_size : Nat) (g : Grid) (i j : Nat) : ℝ :=
  ∑ n in Finset.range (img_size ^ 2),
    (g (n % img_size) (n / img_size) : ℝ) *
      Real.cos (Real.pi / ((img_size ^ 2 : Nat) : ℝ) *
        ((n : ℝ) + 0.5) * ((i * img_size + (j + 1) : Nat) : ℝ))

/-- The coefficient average of `phash` (line 130): `total_sum` over
`(hash_size * hash_size) as u32` cells, in `f64` arithmetic. -/
noncomputable def phashAvg (img_size : Nat) (g : Grid) (hash_size : Nat) : ℝ :=
  (∑ i in Finset.range hash_size, ∑ j in Finset.range hash_size, phashDct img_size g i j) /
    ((hash_size * hash_size % U32 : Nat) : ℝ)

/-- The `(index, bit)` pairs of the `phash` packing loop, in visit order:
the counter `c` equals `i * hash_size + j`, the bit is
`dct_arr[i][j] > avg`. -/
noncomputable def phashCs (img_size : Nat) (g : Grid) (hash_size : Nat) (avg : ℝ) :
    List (Nat × Bool) :=
  (List.range hash_size).bind (fun i =>
    (List.range hash_size).map (fun j =>
      (i * hash_size + j, rgt (phashDct img_size g i j) avg)))

/-- Perceptual hash (`phash`, lines 96-154) on the decoded grid already
resized to `img_size × img_size` with `img_size = hash_size *
highfreq_factor` (a wrapping `u32` product): computes the `hash_size ×
hash_size` coefficient matrix `phashDct`, its float average over
`(hash_size * hash_size) as u32` cells, then emits bit `c = i*hash_size +
j` as `coefficient > avg` in row-major order. -/
noncomputable def phash (g : Grid) (hash_size highfreq_factor : Nat) :
    Except HashErr ImageHash :=
  let img_size := hash_size * highfreq_factor % U32
  let hashpow := hash_size ^ 2 % U32
  Except.map (fun (st : List Bool × List Nat) => ⟨st.1, st.2, hash_size⟩)
    (packAll (phashCs img_size g hash_size (phashAvg img_size g hash_size))
      (List.replicate hashpow false, List.replicate (hashpow / 8) 0))

/-- One iteration of the `distance` loop body (lines 37-42):
`if self.bool_values.get(i).unwrap() != other.bool_values.get(i).unwrap()
{ count += 1 }` — `count` is a `u32` (inferred from the `PyResult<u32>`
return type), so the increment wraps mod 2³². -/
def distStep (a b : List Bool) (count i : Nat) : Except HashErr Nat :=
  match getPanic a i with
  | .error e => .error e
  | .ok av =>
    match getPanic b i with
    | .error e => .error e
    | .ok bv => .ok (if av ≠ bv then (count + 1) % U32 else count)

/-- The `distance` counting loop, `i` running over `0 .. self.hash_size.pow(2)`. -/
def distLoop (a b : List Bool) (n : Nat) : Except HashErr Nat :=
  (List.range n).foldlM (distStep a b) 0

/-- `ImageHash::distance` (lines 30-44): errors with "Unmatch size" when the
two hash sizes differ, otherwise counts differing bit positions over
`[0, self.hash_size²)`. -/
def ImageHash.distance (a b : ImageHash) : Except HashErr Nat :=
  if a.hash_size ≠ b.hash_size then .error .sizeMismatch
  else distLoop a.bool_values b.bool_values (a.hash_size ^ 2)

/-! ### Basic lemmas about the checked vector operations -/

theorem listSet_ok {α : Type} (l : List α) (i : Nat) (a : α) (h : i < l.length) :
    listSet l i a = .ok (l.set i a) := by
  simp [listSet, h]

theorem listSet_err {α : Type} (l : List α) (i : Nat) (a : α) (h : ¬ i < l.length) :
    listSet l i a = .error .runtimePanic := by
  simp [listSet, h]

theorem listModify_ok (l : List Nat) (i : Nat) (f : Nat → Nat) (h : i < l.length) :
    listModify l i f = .ok (l.set i (f (l.getD i 0))) := by
  simp [listModify, h]

theorem listModify_err (l : List Nat) (i : Nat) (f : Nat → Nat) (h : ¬ i < l.length) :
    listModify l i f = .error .runtimePanic := by
  simp [listModify, h]

theorem getPanic_ok (l : List Bool) (i : Nat) (h : i < l.length) :
    getPanic l i = .ok (l.getD i false) := by
  unfold getPanic List.getD
  rw [List.get?_eq_get h]
  rfl

theorem getPanic_err (l : List Bool) (i : Nat) (h : l.length ≤ i) :
    getPanic l i = .error .runtimePanic := by
  unfold getPanic
  rw [List.get?_eq_none.mpr h]

/-- Setting a replicated value back into a replicated list changes nothing. -/
theorem replicate_set {α : Type} (a : α) :
    ∀ (n i : Nat), (List.replicate n a).set i a = List.replicate n a := by
  intro n
  induction n with
  | zero => intro i; rfl
  | succ m ih =>
    intro i
    cases i with
    | zero => simp [List.replicate_succ]
    | succ k => simp [List.replicate_succ, ih k]

/-- Writing back the value already stored at an in-bounds index changes
nothing. -/
theorem set_getD_self (l : List Nat) : ∀ (i : Nat), i < l.length → l.set i (l.getD i 0) = l := by
  induction l with
  | nil => intro i h; simp at h
  | cons a t ih =>
    intro i h
    cases i with
    | zero => rfl
    | succ k =>
      have hk : k < t.length := by simpa using h
      show a :: t.set k (t.getD k 0) = a :: t
      rw [ih k hk]

/-! ### Lemmas about the shared packing loop -/

theorem packStep_ok_lengths (st st' : List Bool × List Nat) (cv : Nat × Bool)
    (h : packStep st cv = .ok st') :
    st'.1.length = st.1.length ∧ st'.2.length = st.2.length := by
  by_cases h1 : cv.1 < st.1.length
  · rw [packStep, listSet_ok _ _ _ h1] at h
    by_cases h2 : cv.1 / 8 < st.2.length
    · rw [listModify_ok _ _ _ h2] at h
      cases h
      constructor <;> simp
    · rw [listModify_err _ _ _ h2] at h
      cases h
  · rw [packStep, listSet_err _ _ _ h1] at h
    cases h

theorem packStep_ok_of_bounds (st : List Bool × List Nat) (cv : Nat × Bool)
    (h1 : cv.1 < st.1.length) (h2 : cv.1 / 8 < st.2.length) :
    packStep st cv = .ok (st.1.set cv.1 cv.2,
      st.2.set (cv.1 / 8) ((st.2.getD (cv.1 / 8) 0) ||| (if cv.2 then 1 <<< (cv.1 % 8) else 0))) := by
  rw [packStep, listSet_ok _ _ _ h1, listModify_ok _ _ _ h2]

theorem packAll_nil (st : List Bool × List Nat) : packAll [] st = .ok st := rfl

theorem packAll_cons (cv : Nat × Bool) (cs : List (Nat × Bool)) (st : List Bool × List Nat) :
    packAll (cv :: cs) st =
      match packStep st cv with
      | .error e => .error e
      | .ok st₁ => packAll cs st₁ := by
  rw [packAll, List.foldlM_cons]
  cases h : packStep st cv
  · rfl
  · rfl

theorem packAll_ok_lengths (cs : List (Nat × Bool)) :
    ∀ (st st' : List Bool × List Nat), packAll cs st = .ok st' →
      st'.1.length = st.1.length ∧ st'.2.length = st.2.length := by
  induction cs with
  | nil =>
    intro st st' h
    rw [packAll_nil] at h
    cases h
    exact ⟨rfl, rfl⟩
  | cons cv cs ih =>
    intro st st' h
    rw [packAll_cons] at h
    cases hs : packStep st cv with
    | error e => rw [hs] at h; cases h
    | ok st₁ =>
      rw [hs] at h
      obtain ⟨e1, e2⟩ := packStep_ok_lengths st st₁ cv hs
      obtain ⟨f1, f2⟩ := ih st₁ st' h
      exact ⟨f1.trans e1, f2.trans e2⟩

theorem packAll_ok_of_bounds (cs : List (Nat × Bool)) :
    ∀ (st : List Bool × List Nat),
      (∀ cv ∈ cs, cv.1 < st.1.length ∧ cv.1 / 8 < st.2.length) →
      ∃ st', packAll cs st = .ok st' := by
  induction cs with
  | nil => intro st _; exact ⟨st, packAll_nil st⟩
  | cons cv cs ih =>
    intro st hb
    obtain ⟨h1, h2⟩ := hb cv (List.mem_cons_self cv cs)
    have hs := packStep_ok_of_bounds st cv h1 h2
    obtain ⟨l1, l2⟩ := packStep_ok_lengths st _ cv hs
    rw [packAll_cons, hs]
    refine ih _ ?_
    intro cv' hcv'
    obtain ⟨b1, b2⟩ := hb cv' (List.mem_cons_of_mem cv hcv')
    rw [l1, l2]
    exact ⟨b1, b2⟩

/-- When every bit in the list is `false` and every index is in bounds, the
packing loop succeeds and leaves the all-false bit vector and the byte
vector unchanged. -/
theorem packAll_const_false (cs : List (Nat × Bool)) :
    ∀ (L : Nat) (bs : List Nat),
      (∀ cv ∈ cs, cv.2 = false ∧ cv.1 < L ∧ cv.1 / 8 < bs.length) →
      packAll cs (List.replicate L false, bs) = .ok (List.replicate L false, bs) := by
  induction cs with
  | nil => intro L bs _; exact packAll_nil _
  | cons cv cs ih =>
    intro L bs hb
    obtain ⟨hv, h1, h2⟩ := hb cv (List.mem_cons_self cv cs)
    have h1' : cv.1 < (List.replicate L false).length := by simpa using h1
    have hs := packStep_ok_of_bounds (List.replicate L false, bs) cv h1' h2
    rw [packAll_cons, hs]
    simp only [hv] at hs ⊢
    rw [replicate_set, if_neg (by simp), Nat.or_zero, set_getD_self bs _ h2]
    refine ih L bs ?_
    intro cv' hcv'
    exact hb cv' (List.mem_cons_of_mem cv hcv')

/-! ### Arithmetic helpers for index bounds -/

theorem rowmajor_lt (N y x : Nat) (hy : y < N) (hx : x < N) : y * N + x < N ^ 2 := by
  calc y * N + x < y * N + N := by omega
  _ = (y + 1) * N := by ring
  _ ≤ N * N := Nat.mul_le_mul_right N hy
  _ = N ^ 2 := (Nat.pow_two N).symm

/-! ### The wrapping luminance sum on constant grids -/

theorem foldl_add_const (v : Nat) (l : List Nat) :
    ∀ (s : Nat), s + v * l.length < U32 →
      l.foldl (fun t _ => (t + v) % U32) s = s + v * l.length := by
  induction l with
  | nil => intro s _; simp
  | cons a t ih =>
    intro s h
    have hexp : v * (t.length + 1) = v * t.length + v := by ring
    simp only [List.length_cons] at h
    rw [hexp] at h
    simp only [List.foldl_cons]
    rw [Nat.mod_eq_of_lt (by omega)]
    rw [ih (s + v) (by omega)]
    simp only [List.length_cons]
    rw [hexp]
    ring

theorem sumLum_const (v N : Nat) (h : v * N ^ 2 < U32) :
    sumLum (fun _ _ => v) N = v * N ^ 2 := by
  have hsq : v * (N * N) < U32 := by rw [← Nat.pow_two]; exact h
  have key : ∀ (l : List Nat) (s : Nat), s + v * N * l.length < U32 →
      l.foldl (fun s' _ => (List.range N).foldl (fun t _ => (t + v) % U32) s') s =
        s + v * N * l.length := by
    intro l
    induction l with
    | nil => intro s _; simp
    | cons a t ih =>
      intro s h'
      have hexp : v * N * (t.length + 1) = v * N * t.length + v * N := by ring
      simp only [List.length_cons] at h'
      rw [hexp] at h'
      simp only [List.foldl_cons]
      rw [foldl_add_const v (List.range N) s (by simp only [List.length_range]; omega)]
      simp only [List.length_range]
      rw [ih (s + v * N) (by omega)]
      simp only [List.length_cons]
      rw [hexp]
      ring
  show (List.range N).foldl
      (fun s y => (List.range N).foldl (fun t x => (t + v) % U32) s) 0 = v * N ^ 2
  rw [key (List.range N) 0 (by simp only [List.length_range]; rw [Nat.zero_add, Nat.mul_assoc, ← Nat.pow_two]; exact h)]
  simp only [List.length_range, Nat.zero_add]
  rw [Nat.mul_assoc, ← Nat.pow_two]

/-! ### Output shape of the three hashing functions -/

theorem map_mk_ok (N : Nat) (r : Except HashErr (List Bool × List Nat)) (F : ImageHash)
    (h : Except.map (fun (st : List Bool × List Nat) => (⟨st.1, st.2, N⟩ : ImageHash)) r = .ok F) :
    ∃ st, r = .ok st ∧ F = ⟨st.1, st.2, N⟩ := by
  cases r with
  | error e => simp [Except.map] at h
  | ok st =>
    refine ⟨st, rfl, ?_⟩
    simp only [Except.map] at h
    cases h
    rfl

theorem ahash_ok_shape (g : Grid) (N : Nat) (F : ImageHash) (h : ahash g N = .ok F) :
    F.hash_size = N ∧ F.bool_values.length = N ^ 2 % U32 ∧
      F.values.length = (N ^ 2 % U32) / 8 := by
  simp only [ahash] at h
  by_cases h0 : N ^ 2 % U32 = 0
  · rw [if_pos h0] at h; cases h
  · rw [if_neg h0] at h
    obtain ⟨st, hst, rfl⟩ := map_mk_ok N _ F h
    obtain ⟨l1, l2⟩ := packAll_ok_lengths _ _ _ hst
    simp only [List.length_replicate] at l1 l2
    exact ⟨rfl, l1, l2⟩

theorem dhash_ok_shape (g : Grid) (N : Nat) (F : ImageHash) (h : dhash g N = .ok F) :
    F.hash_size = N ∧ F.bool_values.length = N ^ 2 % U32 ∧
      F.values.length = (N ^ 2 % U32) / 8 := by
  simp only [dhash] at h
  obtain ⟨st, hst, rfl⟩ := map_mk_ok N _ F h
  obtain ⟨l1, l2⟩ := packAll_ok_lengths _ _ _ hst
  simp only [List.length_replicate] at l1 l2
  exact ⟨rfl, l1, l2⟩

theorem phash_ok_shape (g : Grid) (N f : Nat) (F : ImageHash) (h : phash g N f = .ok F) :
    F.hash_size = N ∧ F.bool_values.length = N ^ 2 % U32 ∧
      F.values.length = (N ^ 2 % U32) / 8 := by
  simp only [phash] at h
  obtain ⟨st, hst, rfl⟩ := map_mk_ok N _ F h
  obtain ⟨l1, l2⟩ := packAll_ok_lengths _ _ _ hst
  simp only [List.length_replicate] at l1 l2
  exact ⟨rfl, l1, l2⟩

/-- When `8` divides `N²` (and `N²` fits in a `u32`), every write of the
`phash` packing loop is in bounds, so `phash` succeeds on every grid. -/
theorem phash_ok_exists (g : Grid) (N f : Nat) (h8 : 8 ∣ N ^ 2) (hsz : N ^ 2 < U32) :
    ∃ F, phash g N f = .ok F := by
  simp only [phash]
  have hmod : N ^ 2 % U32 = N ^ 2 := Nat.mod_eq_of_lt hsz
  have hb : ∀ cv ∈ phashCs (N * f % U32) g N
      (phashAvg (N * f % U32) g N),
      cv.1 < (List.replicate (N ^ 2 % U32) false).length ∧
        cv.1 / 8 < (List.replicate ((N ^ 2 % U32) / 8) (0 : Nat)).length := by
    intro cv hcv
    simp only [phashCs, List.mem_bind, List.mem_map, List.mem_range] at hcv
    obtain ⟨i, hi, j, hj, rfl⟩ := hcv
    have hlt : i * N + j < N ^ 2 := rowmajor_lt N i j hi hj
    simp only [List.length_replicate, hmod]
    exact ⟨hlt, Nat.div_lt_div_of_lt_of_dvd h8 hlt⟩
  obtain ⟨st, hst⟩ := packAll_ok_of_bounds
    (phashCs (N * f % U32) g N (phashAvg (N * f % U32) g N))
    (List.replicate (N ^ 2 % U32) false, List.replicate ((N ^ 2 % U32) / 8) 0) hb
  rw [hst]
  exact ⟨⟨st.1, st.2, N⟩, rfl⟩

/-- `ahash` on a constant grid of luminance `v`: the mean is exactly `v`,
the strict comparison `v > v` fails everywhere, so all bits are `0` (and
the packed bytes all zero), provided `8 ∣ N²` so the byte writes stay in
bounds. -/
theorem ahash_const (v N : Nat) (hN : 0 < N) (h8 : 8 ∣ N ^ 2) (hv : v * N ^ 2 < U32)
    (hsz : N ^ 2 < U32) :
    ahash (fun _ _ => v) N =
      .ok ⟨List.replicate (N ^ 2) false, List.replicate (N ^ 2 / 8) 0, N⟩ := by
  have hmod : N ^ 2 % U32 = N ^ 2 := Nat.mod_eq_of_lt hsz
  have hp : 0 < N ^ 2 := pow_pos hN 2
  simp only [ahash, hmod]
  rw [if_neg (by omega)]
  rw [sumLum_const v N hv, Nat.mul_div_cancel _ hp]
  have hcs : ∀ cv ∈ ahashCs (fun _ _ => v) N v,
      cv.2 = false ∧ cv.1 < N ^ 2 ∧
        cv.1 / 8 < (List.replicate (N ^ 2 / 8) (0 : Nat)).length := by
    intro cv hcv
    simp only [ahashCs, List.mem_bind, List.mem_map, List.mem_range] at hcv
    obtain ⟨y, hy, x, hx, rfl⟩ := hcv
    have hlt : y * N + x < N ^ 2 := rowmajor_lt N y x hy hx
    refine ⟨decide_eq_false (lt_irrefl v), hlt, ?_⟩
    simp only [List.length_replicate]
    exact Nat.div_lt_div_of_lt_of_dvd h8 hlt
  rw [packAll_const_false _ _ _ hcs]
  rfl

/-- `dhash` on the all-zero grid: every comparison `0 > 0` is false, so
whenever all the stride-8 indices are in bounds the result is the all-false
bit vector of (wrapped) length `N² mod 2³²`. -/
theorem dhash_zero (N : Nat)
    (hb : ∀ y, y < N → ∀ x, x < N →
      (y * 8 + x) % U32 < N ^ 2 % U32 ∧ ((y * 8 + x) % U32) / 8 < (N ^ 2 % U32) / 8) :
    dhash (fun _ _ => 0) N =
      .ok ⟨List.replicate (N ^ 2 % U32) false, List.replicate ((N ^ 2 % U32) / 8) 0, N⟩ := by
  simp only [dhash]
  have hcs : ∀ cv ∈ dhashCs (fun _ _ => 0) N,
      cv.2 = false ∧ cv.1 < N ^ 2 % U32 ∧
        cv.1 / 8 < (List.replicate ((N ^ 2 % U32) / 8) (0 : Nat)).length := by
    intro cv hcv
    simp only [dhashCs, List.mem_bind, List.mem_map, List.mem_range] at hcv
    obtain ⟨y, hy, x, hx, rfl⟩ := hcv
    obtain ⟨b1, b2⟩ := hb y hy x hx
    refine ⟨decide_eq_false (lt_irrefl 0), b1, ?_⟩
    simp only [List.length_replicate]
    exact b2
  rw [packAll_const_false _ _ _ hcs]
  rfl

/-! ### Lemmas about the distance loop -/

theorem getPanic_error_eq (l : List Bool) (i : Nat) (e : HashErr)
    (h : getPanic l i = .error e) : e = .runtimePanic := by
  unfold getPanic at h
  cases hg : l.get? i <;> rw [hg] at h
  · cases h; rfl
  · cases h

theorem distLoop_zero (a b : List Bool) : distLoop a b 0 = .ok 0 := rfl

theorem distLoop_succ (a b : List Bool) (n : Nat) :
    distLoop a b (n + 1) =
      match distLoop a b n with
      | .error e => .error e
      | .ok c => distStep a b c n := by
  rw [distLoop, List.range_succ, List.foldlM_append, ← distLoop]
  cases h : distLoop a b n with
  | error e => rfl
  | ok c =>
    show distStep a b c n >>= _ = distStep a b c n
    cases hs : distStep a b c n <;> rfl

theorem distLoop_ok (a b : List Bool) :
    ∀ n, n ≤ a.length → n ≤ b.length →
      distLoop a b n =
        .ok ((List.range n).countP (fun i => a.getD i false != b.getD i false) % U32) := by
  intro n
  induction n with
  | zero => intro _ _; rfl
  | succ m ih =>
    intro h1 h2
    rw [distLoop_succ, ih (by omega) (by omega)]
    show distStep a b _ m = _
    unfold distStep
    rw [getPanic_ok a m (by omega), getPanic_ok b m (by omega)]
    rw [List.range_succ, List.countP_append]
    have eU : U32 = 4294967296 := by norm_num [U32]
    by_cases hab : a.getD m false = b.getD m false
    · simp only [List.getD, List.get?_eq_getElem?] at hab
      simp [List.countP_cons, hab]
    · simp only [List.getD, List.get?_eq_getElem?] at hab
      simp [List.countP_cons, hab]

/-- When the loop bound is below `2³²`, the `u32` count cannot wrap (it is
at most the number of iterations), so the result is the exact count. -/
theorem distLoop_ok_exact (a b : List Bool) (n : Nat)
    (ha : n ≤ a.length) (hb : n ≤ b.length) (hn : n < U32) :
    distLoop a b n =
      .ok ((List.range n).countP (fun i => a.getD i false != b.getD i false)) := by
  rw [distLoop_ok a b n ha hb]
  have hle : (List.range n).countP (fun i => a.getD i false != b.getD i false) ≤ n := by
    have := List.countP_le_length
      (p := fun i => a.getD i false != b.getD i false) (l := List.range n)
    simpa using this
  rw [Nat.mod_eq_of_lt (by omega)]

theorem distLoop_err (a b : List Bool) (hab : a.length ≤ b.length) :
    ∀ n, a.length < n → distLoop a b n = .error .runtimePanic := by
  intro n
  induction n with
  | zero => intro h; omega
  | succ m ih =>
    intro h
    rw [distLoop_succ]
    by_cases hm : a.length < m
    · rw [ih hm]
    · have hm' : a.length = m := by omega
      rw [distLoop_ok a b m (by omega) (by omega)]
      show distStep a b _ m = _
      unfold distStep
      rw [getPanic_err a m (by omega)]

theorem distLoop_comm (a b : List Bool) : ∀ n, distLoop a b n = distLoop b a n := by
  intro n
  induction n with
  | zero => rfl
  | succ m ih =>
    rw [distLoop_succ, distLoop_succ, ih]
    cases h : distLoop b a m with
    | error e => rfl
    | ok c =>
      show distStep a b c m = distStep b a c m
      unfold distStep
      cases ha : getPanic a m with
      | error e =>
        rw [getPanic_error_eq a m e ha]
        cases hb : getPanic b m with
        | error e' => rw [getPanic_error_eq b m e' hb]
        | ok bv => rfl
      | ok av =>
        cases hb : getPanic b m with
        | error e' => rw [getPanic_error_eq b m e' hb]
        | ok bv =>
          by_cases hv : av = bv
          · subst hv
            rfl
          · have hv' : ¬ bv = av := fun e => hv e.symm
            simp [hv, hv']

/-! ### Flattening the double pixel loop of the transform -/

theorem sum_range_mul_flat (F : ℕ → ℝ) (M : Nat) :
    ∀ a, ∑ n in Finset.range (a * M), F n =
      ∑ y in Finset.range a, ∑ x in Finset.range M, F (y * M + x) := by
  intro a
  induction a with
  | zero => simp
  | succ m ih =>
    rw [Finset.sum_range_succ, ← ih, Nat.succ_mul, Finset.sum_range_add]

/-! ### Claim theorems -/

set_option maxRecDepth 100000 in
/-- C1: the claim says the difference hash places the comparison bit for
logical row `y`, column `x` at index `c = y*N + x`.  The code instead uses
the fixed stride 8: `c = y*8 + x` (line 176).  Evaluated at `N = 9` on a
grid whose only positive comparison is at `(y, x) = (1, 0)`: the bit
appears at index `1*8 + 0 = 8`, not at the claimed `1*9 + 0 = 9`. -/
theorem claim_c1_stride_defect :
    (dhash (fun x y => if x = 0 ∧ y = 1 then 255 else 0) 9).map
      (fun F => (F.bool_values.getD (1 * 9 + 0) true, F.bool_values.getD (1 * 8 + 0) false)) =
      .ok (false, true) := by rfl

set_option maxRecDepth 100000 in
/-- C2 counterexample: at `N = 9` the difference hash succeeds on the
all-zero grid, but its packed byte sequence has length `floor(81/8) = 10`,
not the claimed `ceil(81/8) = 11`. -/
theorem claim_c2_counterexample :
    (dhash (fun _ _ => 0) 9).map (fun F => F.values.length) = .ok 10 ∧
      (10 : Nat) ≠ (9 * 9 + 7) / 8 := ⟨by rfl, by decide⟩

/-- C2 (amended): each of the three hashing functions, whenever it succeeds
(and `N²` fits in a `u32`), returns a Fingerprint with `bits` of length
exactly `N*N` and `packed` of length exactly `floor(N*N/8)` — the code
allocates the packed vector with truncating division, not `ceil`.  The
three functions are stated as independent implications, so each contract
is settled on that function's own success domain: `ahash` and `phash`
succeed only when `8 ∣ N²` (where floor = ceil), while `dhash` also
succeeds at sizes like `N = 9`, where `floor(81/8) = 10 ≠ ceil = 11`. -/
theorem claim_c2_amended (N f : Nat) (g : Grid) (F : ImageHash)
    (hsz : N ^ 2 < U32) :
    (ahash g N = .ok F →
      F.bool_values.length = N ^ 2 ∧ F.values.length = N ^ 2 / 8) ∧
    (dhash g N = .ok F →
      F.bool_values.length = N ^ 2 ∧ F.values.length = N ^ 2 / 8) ∧
    (phash g N f = .ok F →
      F.bool_values.length = N ^ 2 ∧ F.values.length = N ^ 2 / 8) := by
  have hmod : N ^ 2 % U32 = N ^ 2 := Nat.mod_eq_of_lt hsz
  refine ⟨fun h => ?_, fun h => ?_, fun h => ?_⟩
  · obtain ⟨_, b, c⟩ := ahash_ok_shape g N F h
    rw [hmod] at b c
    exact ⟨b, c⟩
  · obtain ⟨_, b, c⟩ := dhash_ok_shape g N F h
    rw [hmod] at b c
    exact ⟨b, c⟩
  · obtain ⟨_, b, c⟩ := phash_ok_shape g N f F h
    rw [hmod] at b c
    exact ⟨b, c⟩

set_option maxRecDepth 100000 in
/-- C2 witness: the `dhash` clause exercised at `N = 9` — the very case
where the packed length `floor(81/8) = 10` differs from `ceil(81/8) = 11`
— and the `ahash` clause at `N = 8`, both on the all-zero grid. -/
theorem claim_c2_witness :
    ((⟨List.replicate 81 false, List.replicate 10 0, 9⟩ : ImageHash).bool_values.length = 9 ^ 2 ∧
      (⟨List.replicate 81 false, List.replicate 10 0, 9⟩ : ImageHash).values.length = 9 ^ 2 / 8) ∧
    ((⟨List.replicate 64 false, List.replicate 8 0, 8⟩ : ImageHash).bool_values.length = 8 ^ 2 ∧
      (⟨List.replicate 64 false, List.replicate 8 0, 8⟩ : ImageHash).values.length = 8 ^ 2 / 8) :=
  ⟨(claim_c2_amended 9 1 (fun _ _ => 0)
      ⟨List.replicate 81 false, List.replicate 10 0, 9⟩ (by decide)).2.1 (by rfl),
   (claim_c2_amended 8 1 (fun _ _ => 0)
      ⟨List.replicate 64 false, List.replicate 8 0, 8⟩ (by decide)).1 (by rfl)⟩

/-- C3 counterexample: the spec's formula (column index `j` ranging over
`[1, N]`, stored at `j-1`, so `k = i*M + j + 1` at matrix index `(i, j)`)
disagrees with the code, which ranges `j` over `[0, N)` with `k = i*M + j`
and does not skip the DC term.  At `M = 1` on the constant-255 grid the
code's entry `(0,0)` is `255·cos 0 = 255` while the spec's is
`255·cos(π/2) = 0`. -/
theorem claim_c3_counterexample :
    phashDct 1 (fun _ _ => 255) 0 0 ≠ dctCoeffSpec 1 (fun _ _ => 255) 0 0 := by
  have hL : phashDct 1 (fun _ _ => 255) 0 0 = 255 := by
    unfold phashDct dctCoeff
    simp only [Finset.sum_range_one]
    norm_num
  have hR : dctCoeffSpec 1 (fun _ _ => 255) 0 0 = 0 := by
    unfold dctCoeffSpec
    rw [show ((1 : Nat) ^ 2) = 1 from rfl]
    simp only [Finset.sum_range_one]
    have harg : Real.pi / (((1 : Nat) : Nat) : ℝ) * (((0 : Nat) : ℝ) + 0.5) *
        (((0 * 1 + (0 + 1) : Nat)) : ℝ) = Real.pi / 2 := by
      push_cast
      ring
    rw [harg, Real.cos_pi_div_two]
    norm_num
  rw [hL, hR]
  norm_num

/-- C3 (amended): the coefficient matrix entry `(i, j)` of the perceptual
hash, for `j` ranging over `[0, N)` (the DC term `j = 0` included, not
skipped), equals the sum over the flattened pixel sequence
`pixel[n] = luminance(n mod M, n div M)` of
`pixel[n] · cos((π/M²)·(n + 0.5)·k)` with `k = i*M + j` (stated for `M²`
and `k` within `u32` range, where the wrapping reductions are identities). -/
theorem claim_c3_amended (M : Nat) (g : Grid) (i j : Nat) (hM : M ^ 2 < U32)
    (hk : i * M + j < U32) :
    phashDct M g i j =
      ∑ n in Finset.range (M ^ 2),
        (g (n % M) (n / M) : ℝ) *
          Real.cos (Real.pi / ((M ^ 2 : Nat) : ℝ) * ((n : ℝ) + 0.5) *
            ((i * M + j : Nat) : ℝ)) := by
  unfold phashDct dctCoeff
  rw [Nat.mod_eq_of_lt hk, Nat.mod_eq_of_lt hM]
  rw [show (M : Nat) ^ 2 = M * M from Nat.pow_two M]
  rw [sum_range_mul_flat
    (fun n => (g (n % M) (n / M) : ℝ) *
      Real.cos (Real.pi / ((M * M : Nat) : ℝ) * ((n : ℝ) + 0.5) * ((i * M + j : Nat) : ℝ))) M M]
  apply Finset.sum_congr rfl
  intro y hy
  apply Finset.sum_congr rfl
  intro x hx
  rw [Finset.mem_range] at hy hx
  have hM0 : 0 < M := by omega
  have hmod : (y * M + x) % U32 = y * M + x := by
    have h1 : y * M + x < M * M := by
      have := rowmajor_lt M y x hy hx
      rwa [Nat.pow_two] at this
    have h2 : M * M < U32 := by rwa [Nat.pow_two] at hM
    exact Nat.mod_eq_of_lt (by omega)
  have e1 : (y * M + x) % M = x := by
    rw [Nat.mul_comm y M, Nat.mul_add_mod, Nat.mod_eq_of_lt hx]
  have e2 : (y * M + x) / M = y := by
    rw [Nat.mul_comm y M, Nat.mul_add_div hM0, Nat.div_eq_of_lt hx]
    omega
  rw [hmod, e1, e2]

/-- C3 witness: the amended claim instantiated at `M = 2`, constant grid 7,
entry `(0, 1)`. -/
theorem claim_c3_witness :
    phashDct 2 (fun _ _ => 7) 0 1 =
      ∑ n in Finset.range (2 ^ 2),
        (((7 : Nat)) : ℝ) *
          Real.cos (Real.pi / ((2 ^ 2 : Nat) : ℝ) * ((n : ℝ) + 0.5) *
            ((0 * 2 + 1 : Nat) : ℝ)) :=
  claim_c3_amended 2 (fun _ _ => 7) 0 1 (by decide) (by decide)

/-- C4: the claim says `hash_size = 0` (or `highfreq_factor = 0`) is
rejected immediately with an `InvalidArgument` error.  No such validation
exists in the code: `ahash` with `hash_size = 0` divides the luminance sum
by `hash_size² = 0`, a `u32` division by zero, i.e. a panic — while
`phash` and `dhash` with `hash_size = 0` return an empty Fingerprint
without any error. -/
theorem claim_c4_no_validation :
    ahash (fun _ _ => 0) 0 = .error .runtimePanic ∧
    phash (fun _ _ => 0) 0 1 = .ok ⟨[], [], 0⟩ ∧
    dhash (fun _ _ => 0) 0 = .ok ⟨[], [], 0⟩ :=
  ⟨rfl, rfl, rfl⟩

/-- C5: `distance` fails with the size-mismatch error when the two hash
sizes differ (before touching any bit), and otherwise returns exactly the
number of positions `c` in `[0, hash_size²)` where the two bit sequences
differ.  Stated for Fingerprints satisfying the data model's length
invariant `bits.length = hash_size²` (§3 of the spec makes the invariant
part of the Fingerprint type) and with `hash_size²` inside `u32` range:
the loop's `u32` count is bounded by the iteration count `hash_size²`, so
under this qualifier it cannot wrap — and no Fingerprint satisfying the
length invariant with `hash_size² ≥ 2³²` is constructible through the
module anyway (for such sizes the constructors panic or produce strictly
shorter, invariant-violating bit vectors, cf. the C10 counterexample). -/
theorem claim_c5_distance_contract (A B : ImageHash)
    (hA : A.bool_values.length = A.hash_size ^ 2)
    (hB : B.bool_values.length = B.hash_size ^ 2)
    (hU : A.hash_size ^ 2 < U32) :
    (A.hash_size ≠ B.hash_size → A.distance B = .error .sizeMismatch) ∧
    (A.hash_size = B.hash_size →
      A.distance B = .ok ((List.range (A.hash_size ^ 2)).countP
        (fun i => A.bool_values.getD i false != B.bool_values.getD i false))) := by
  constructor
  · intro hne
    rw [ImageHash.distance, if_pos hne]
  · intro he
    rw [ImageHash.distance, if_neg (not_ne_iff.mpr he)]
    exact distLoop_ok_exact _ _ _ (le_of_eq hA.symm) (by rw [hB, he]) hU

/-- C5 witness: two well-formed Fingerprints of size 1 differing in their
single bit have distance 1. -/
theorem claim_c5_witness :
    (⟨[true], [1], 1⟩ : ImageHash).distance ⟨[false], [0], 1⟩ = .ok 1 := by
  have h := (claim_c5_distance_contract ⟨[true], [1], 1⟩ ⟨[false], [0], 1⟩
    rfl rfl (by decide)).2 rfl
  rw [h]
  rfl

set_option maxRecDepth 100000 in
/-- C6: the claim says `bits[c]` always agrees with bit `c mod 8` of packed
byte `c/8`.  Because of the stride-8 index defect, at `N = 9` the cells
`(y,x) = (0,8)` and `(1,0)` collide on index 8: `bool_result[8]` keeps only
the last write while `result[1]` accumulates with `|=`.  On a grid where
the first comparison is 1 and the second 0, `bits[8]` is `false` but bit
`8 mod 8` of byte `8/8` is 1, refuting the round-trip. -/
theorem claim_c6_roundtrip_broken :
    (dhash (fun x y => if x = 8 ∧ y = 0 then 255 else 0) 9).map
      (fun F => (F.bool_values.getD 8 true, ((F.values.getD (8 / 8) 0) >>> (8 % 8)) % 2)) =
      .ok (false, 1) := by rfl

/-- C7 counterexample: the claim says every `N ≥ 1` yields an all-zero
average hash on a solid black image; but at `N = 1` the packed vector is
allocated with length `floor(1/8) = 0` and the write `result[0] |= …`
panics, so no Fingerprint is produced at all. -/
theorem claim_c7_counterexample :
    ahash (fun _ _ => 0) 1 = .error .runtimePanic := rfl

/-- C7 (amended): for `N ≥ 1` with `8 ∣ N²` (the sizes at which `ahash`'s
packing writes stay in bounds; `255·N²` within `u32` range so the sum does
not wrap), a solid black `N×N` image yields an average hash with all bits 0
— the mean is 0 and the comparison is strict — and a solid white image
(luminance 255 everywhere, equal to the mean) also yields all bits 0. -/
theorem claim_c7_amended (N : Nat) (hN : 0 < N) (h8 : 8 ∣ N ^ 2)
    (hsz : 255 * N ^ 2 < U32) :
    ahash (fun _ _ => 0) N =
      .ok ⟨List.replicate (N ^ 2) false, List.replicate (N ^ 2 / 8) 0, N⟩ ∧
    ahash (fun _ _ => 255) N =
      .ok ⟨List.replicate (N ^ 2) false, List.replicate (N ^ 2 / 8) 0, N⟩ := by
  have eU : U32 = 4294967296 := by norm_num [U32]
  have hsz2 : N ^ 2 < U32 := by omega
  exact ⟨ahash_const 0 N hN h8 (by omega) hsz2, ahash_const 255 N hN h8 hsz hsz2⟩

/-- C7 witness: the amended claim instantiated at `N = 4`. -/
theorem claim_c7_witness :
    ahash (fun _ _ => 0) 4 =
      .ok ⟨List.replicate (4 ^ 2) false, List.replicate (4 ^ 2 / 8) 0, 4⟩ ∧
    ahash (fun _ _ => 255) 4 =
      .ok ⟨List.replicate (4 ^ 2) false, List.replicate (4 ^ 2 / 8) 0, 4⟩ :=
  claim_c7_amended 4 (by decide) (by decide) (by decide)

/-- C8: the claim says the difference hash always succeeds after a
successful decode for every `N ≥ 1`.  It does not: at `N = 2` the packed
vector has length `floor(4/8) = 0` and the very first byte write panics,
and at `N = 1` likewise — the stride-8 bit index `y*8 + x` is also out of
bounds for every `2 ≤ N ≤ 7`. -/
theorem claim_c8_dhash_panics :
    dhash (fun _ _ => 0) 2 = .error .runtimePanic ∧
    dhash (fun _ _ => 0) 1 = .error .runtimePanic :=
  ⟨rfl, rfl⟩

/-- C9: `distance` is symmetric on Fingerprints of equal hash size — the
guard, the loop bound, the panics and the count are all symmetric in the
two arguments. -/
theorem claim_c9_distance_symm (A B : ImageHash) (h : A.hash_size = B.hash_size) :
    A.distance B = B.distance A := by
  simp only [ImageHash.distance, h]
  have hrefl : ¬ (B.hash_size ≠ B.hash_size) := by simp
  rw [if_neg hrefl, if_neg hrefl]
  exact distLoop_comm _ _ _

/-- C9 witness: symmetry at two concrete size-1 Fingerprints. -/
theorem claim_c9_witness :
    (⟨[false], [0], 1⟩ : ImageHash).distance ⟨[true], [0], 1⟩ =
      (⟨[true], [0], 1⟩ : ImageHash).distance ⟨[false], [0], 1⟩ :=
  claim_c9_distance_symm _ _ rfl

/-- C10 counterexample: at `hash_size = 65541` the `u32` product
`hash_size.pow(2)` wraps to `655385`, so `dhash` (release-profile wrapping
semantics) succeeds with a bit vector of length `655385`, while the stored
`hash_size` is `65541` with `hash_size² = 4295622681`; calling `distance`
on this Fingerprint then panics on the `unwrap` of an out-of-bounds
`get`. -/
theorem claim_c10_counterexample :
    (dhash (fun _ _ => 0) 65541).map (fun F => F.bool_values.length) = .ok 655385 ∧
    (dhash (fun _ _ => 0) 65541).map (fun F => F.hash_size ^ 2) = .ok 4295622681 ∧
    (dhash (fun _ _ => 0) 65541).bind (fun F => F.distance F) = .error .runtimePanic ∧
    (655385 : Nat) ≠ 4295622681 := by
  have eU : U32 = 4294967296 := by norm_num [U32]
  have hsq : (65541 : Nat) ^ 2 % U32 = 655385 := by norm_num [U32]
  have hside : ∀ y, y < 65541 → ∀ x, x < 65541 →
      (y * 8 + x) % U32 < 65541 ^ 2 % U32 ∧
        ((y * 8 + x) % U32) / 8 < (65541 ^ 2 % U32) / 8 := by
    intro y hy x hx
    rw [hsq, eU]
    omega
  have hd := dhash_zero 65541 hside
  rw [hsq] at hd
  refine ⟨?_, ?_, ?_, by decide⟩
  · rw [hd]
    simp only [Except.map, List.length_replicate]
  · rw [hd]
    simp only [Except.map]
    norm_num
  · rw [hd]
    show Except.bind _ _ = _
    rw [show ∀ (F : ImageHash) (f : ImageHash → Except HashErr Nat),
        Except.bind (Except.ok F) f = f F from fun _ _ => rfl]
    rw [ImageHash.distance, if_neg (by simp)]
    refine distLoop_err _ _ (le_refl _) _ ?_
    rw [List.length_replicate]
    norm_num

/-- C10 (amended): for hash sizes whose square fits in a `u32` (so the
`hash_size.pow(2)` allocation does not wrap), every ImageHash constructed
by any of the three hashing functions has a bit sequence of length exactly
`hash_size²`, and `distance` on two such Fingerprints of equal `hash_size`
succeeds — every index access is in bounds. -/
theorem claim_c10_amended (N N2 f f2 : Nat) (g g2 : Grid) (F F2 : ImageHash)
    (hsz : N ^ 2 < U32) (hsz2 : N2 ^ 2 < U32)
    (hF : ahash g N = .ok F ∨ dhash g N = .ok F ∨ phash g N f = .ok F)
    (hF2 : ahash g2 N2 = .ok F2 ∨ dhash g2 N2 = .ok F2 ∨ phash g2 N2 f2 = .ok F2)
    (hs : F.hash_size = F2.hash_size) :
    F.bool_values.length = F.hash_size ^ 2 ∧
    F2.bool_values.length = F2.hash_size ^ 2 ∧
    ∃ k, F.distance F2 = .ok k := by
  have sh : F.hash_size = N ∧ F.bool_values.length = N ^ 2 % U32 := by
    rcases hF with h | h | h
    · obtain ⟨a, b, _⟩ := ahash_ok_shape g N F h; exact ⟨a, b⟩
    · obtain ⟨a, b, _⟩ := dhash_ok_shape g N F h; exact ⟨a, b⟩
    · obtain ⟨a, b, _⟩ := phash_ok_shape g N f F h; exact ⟨a, b⟩
  have sh2 : F2.hash_size = N2 ∧ F2.bool_values.length = N2 ^ 2 % U32 := by
    rcases hF2 with h | h | h
    · obtain ⟨a, b, _⟩ := ahash_ok_shape g2 N2 F2 h; exact ⟨a, b⟩
    · obtain ⟨a, b, _⟩ := dhash_ok_shape g2 N2 F2 h; exact ⟨a, b⟩
    · obtain ⟨a, b, _⟩ := phash_ok_shape g2 N2 f2 F2 h; exact ⟨a, b⟩
  have l1 : F.bool_values.length = F.hash_size ^ 2 := by
    rw [sh.2, sh.1, Nat.mod_eq_of_lt hsz]
  have l2 : F2.bool_values.length = F2.hash_size ^ 2 := by
    rw [sh2.2, sh2.1, Nat.mod_eq_of_lt hsz2]
  refine ⟨l1, l2, ?_⟩
  rw [ImageHash.distance, if_neg (not_ne_iff.mpr hs)]
  refine ⟨_, distLoop_ok _ _ _ (le_of_eq l1.symm) ?_⟩
  rw [l2, ← hs]

set_option maxRecDepth 100000 in
/-- C10 witness: the amended claim instantiated at `N = 8` with the average
hash of the all-zero grid on both sides. -/
theorem claim_c10_witness :
    ((⟨List.replicate 64 false, List.replicate 8 0, 8⟩ : ImageHash)).bool_values.length =
      ((⟨List.replicate 64 false, List.replicate 8 0, 8⟩ : ImageHash)).hash_size ^ 2 ∧
    ((⟨List.replicate 64 false, List.replicate 8 0, 8⟩ : ImageHash)).bool_values.length =
      ((⟨List.replicate 64 false, List.replicate 8 0, 8⟩ : ImageHash)).hash_size ^ 2 ∧
    ∃ k, ((⟨List.replicate 64 false, List.replicate 8 0, 8⟩ : ImageHash)).distance
      ⟨List.replicate 64 false, List.replicate 8 0, 8⟩ = .ok k :=
  claim_c10_amended 8 8 1 1 (fun _ _ => 0) (fun _ _ => 0) _ _
    (by decide) (by decide) (Or.inl (by rfl)) (Or.inl (by rfl)) rfl
